import Mathlib

/-!
Shallow embedding of the qBraid archived circuit-construction engine
(`src/qbraid/_archive/circuits/circuit.py`) together with the parts of its
data model (`Moment`, `Instruction`, `Parameter`, `ParameterTable`,
`UpdateRule`, `validate_operation`) whose source modules are absent from the
snapshot and are therefore modelled from the specification.

Python object identity is represented by explicit `pid` / `iid` identity
fields; Python exceptions are represented by an explicit `Err` value threaded
through every operation, and mutation is represented by explicit state
passing: each operation returns the (possibly partially mutated) state
together with an optional error, matching the semantics of a raised Python
exception leaving prior in-place mutations intact.
-/

namespace Qbraid

/-- Identity-carrying symbolic parameter. Modelled from the spec: the
`Parameter` class is absent from the snapshot; the spec states a Symbol is
"identified by identity (not merely name); carries a display name used only
for collision detection". `pid` is the object identity surrogate. -/
structure Param where
  pid : Nat
  name : String
deriving DecidableEq

/-- Argument of a gate: a number or a symbolic `Param`. -/
inductive Arg where
  | num : Int → Arg
  | param : Param → Arg
deriving DecidableEq

/-- An operation: gate parameters plus target resource (qubit) indices.
`iid` is the Python object identity surrogate (used by the `is` check in
`_check_dup_param_spec`). -/
structure Instruction where
  iid : Nat
  params : List Arg
  qubits : List Nat
deriving DecidableEq

/-- A Moment: ordered list of operations in arrival order. -/
structure Moment where
  instructions : List Instruction
deriving DecidableEq

/-- Modelled from the spec: `Moment.appendable` (the `moment` module is
absent from the snapshot) is a pure query, "true iff op's Resource set does
not intersect the union of Resource sets of operations already held". -/
def Moment.appendable (m : Moment) (op : Instruction) : Bool :=
  op.qubits.all fun q => m.instructions.all fun i => !(i.qubits.contains q)

/-- Modelled from the spec: `Moment.append` "appends op to the operation
list in arrival order". Every call made by the circuit code is guarded by an
`appendable` check or targets an empty moment. -/
def Moment.append (m : Moment) (op : Instruction) : Moment :=
  ⟨m.instructions ++ [op]⟩

/-- The closed set of placement policies (`update_rule` module absent from
the snapshot; the spec lists `Earliest | Inline | New | NewThenInline`). -/
inductive UpdateRule where
  | earliest
  | inline
  | new
  | newThenInline
deriving DecidableEq

/-- Error taxonomy of the spec plus the untyped Python `IndexError` and
`TypeError` (`typeMismatch`) that the circuit code can raise. -/
inductive Err where
  | outOfRangeResource
  | invalidOperation
  | resourceConflict
  | nameConflict
  | typeMismatch
  | indexErr
deriving DecidableEq

/-- Registry mapping each registered `Param` (in registration order, as a
Python dict preserves insertion order) to its ordered binding list of
(operation, argument-slot) pairs. Modelled from the spec: the
`parametertable` module is absent from the snapshot. -/
structure ParameterTable where
  entries : List (Param × List (Instruction × Nat))
deriving DecidableEq

/-- Membership test of `param in self._parameter_table`, by Symbol identity. -/
def ParameterTable.containsP (pt : ParameterTable) (p : Param) : Bool :=
  pt.entries.any fun ent => ent.1.pid == p.pid

/-- Display names of all registered symbols (`get_names`). -/
def ParameterTable.getNames (pt : ParameterTable) : List String :=
  pt.entries.map fun ent => ent.1.name

/-- Binding list currently recorded for `p` (`self._parameter_table[param]`). -/
def ParameterTable.getSpecs (pt : ParameterTable) (p : Param) :
    List (Instruction × Nat) :=
  ((pt.entries.find? fun ent => ent.1.pid == p.pid).map fun ent => ent.2).getD []

/-- In-place replacement of the binding list recorded for `p`. -/
def ParameterTable.setSpecs (pt : ParameterTable) (p : Param)
    (l : List (Instruction × Nat)) : ParameterTable :=
  ⟨pt.entries.map fun ent => if ent.1.pid == p.pid then (ent.1, l) else ent⟩

/-- Embedding of `Circuit._check_dup_param_spec`: true iff some recorded
spec has `spec[0] is instruction and spec[1] == param_index`. -/
def checkDupParamSpec (specs : List (Instruction × Nat)) (instr : Instruction)
    (idx : Nat) : Bool :=
  specs.any fun s => s.1.iid == instr.iid && s.2 == idx

/-- One registration step of `Circuit._add_parameters` for a symbolic
parameter found at slot `idx` of `instr`: extend the identity-matched entry
unless the exact pair is already recorded; for a new symbol, fail with
`nameConflict` when the display name is already taken, else create the
entry. -/
def registerParam (pt : ParameterTable) (p : Param) (instr : Instruction)
    (idx : Nat) : ParameterTable × Option Err :=
  if pt.containsP p then
    if checkDupParamSpec (pt.getSpecs p) instr idx then (pt, none)
    else (pt.setSpecs p (pt.getSpecs p ++ [(instr, idx)]), none)
  else if pt.getNames.contains p.name then (pt, some .nameConflict)
  else (⟨pt.entries ++ [(p, [(instr, idx)])]⟩, none)

/-- Loop body of `Circuit._add_parameters` over the enumerated gate
parameters; numeric arguments are skipped. On an error the table mutations
already made by earlier slots of the same instruction persist. -/
def addParamsAux (instr : Instruction) (pt : ParameterTable) :
    List (Nat × Arg) → ParameterTable × Option Err
  | [] => (pt, none)
  | (_, Arg.num _) :: rest => addParamsAux instr pt rest
  | (idx, Arg.param p) :: rest =>
    match registerParam pt p instr idx with
    | (pt', none) => addParamsAux instr pt' rest
    | (pt', some e) => (pt', some e)

/-- Embedding of `Circuit._add_parameters`. -/
def addParameters (pt : ParameterTable) (instr : Instruction) :
    ParameterTable × Option Err :=
  addParamsAux instr pt instr.params.enum

/-- Modelled from the spec: `validate_operation` on an Instruction (the
`utils` module is absent from the snapshot); "a Resource index outside
`[0, num_resources)` → `OutOfRangeResource`", raised synchronously. -/
def validateInstr (op : Instruction) (n : Nat) : Option Err :=
  if op.qubits.all fun q => q < n then none else some .outOfRangeResource

/-- Modelled from the spec: `validate_operation` on a Moment; "a
Moment/Circuit argument whose contents fail resource-range validation →
`InvalidOperation`". -/
def validateMoment (m : Moment) (n : Nat) : Option Err :=
  if m.instructions.all fun i => i.qubits.all fun q => q < n then none
  else some .invalidOperation

/-- The circuit state: fixed resource count, ordered Moment sequence,
default update rule, parameter table. -/
structure Circuit where
  numQubits : Nat
  moments : List Moment
  updateRule : UpdateRule
  paramTable : ParameterTable
deriving DecidableEq

/-- `Circuit(num_qubits, update_rule)`: fresh circuit, empty moment
sequence, empty parameter table. -/
def Circuit.init (n : Nat) (rule : UpdateRule) : Circuit :=
  ⟨n, [], rule, ⟨[]⟩⟩

/-- Embedding of `Circuit._earliest_appended`: scan all moments in creation
order and append the operation to every moment whose `appendable` holds
(the Python loop has no break); the Bool records whether any append
happened. -/
def earliestAppended (op : Instruction) : List Moment → List Moment × Bool
  | [] => ([], false)
  | m :: rest =>
    let r := earliestAppended op rest
    if m.appendable op then (m.append op :: r.1, true) else (m :: r.1, r.2)

/-- Sequential parameter registration for all instructions of a moment
(the `for instr in op.instructions: self._add_parameters(instr)` loop). -/
def addParamsList (pt : ParameterTable) :
    List Instruction → ParameterTable × Option Err
  | [] => (pt, none)
  | i :: rest =>
    match addParameters pt i with
    | (pt', none) => addParamsList pt' rest
    | (pt', some e) => (pt', some e)

/-- Embedding of `Circuit._update`'s Moment branch (and of the moment path
of `Circuit.append`): validate the moment's resource ranges, register its
instructions' parameters, then insert it at position `k`. -/
def insertMoment (c : Circuit) (m : Moment) (k : Nat) : Circuit × Option Err :=
  match validateMoment m c.numQubits with
  | some e => (c, some e)
  | none =>
    match addParamsList c.paramTable m.instructions with
    | (pt', some e) => ({ c with paramTable := pt' }, some e)
    | (pt', none) =>
      ({ c with paramTable := pt',
                moments := c.moments.take k ++ m :: c.moments.drop k }, none)

/-- The clamped insertion position computed in `Circuit._update`:
`max(min(index if index >= 0 else len + index, len), 0)`. -/
def clampIndex (index : Int) (len : Nat) : Nat :=
  (max (min (if 0 ≤ index then index else (len : Int) + index) (len : Int)) 0).toNat

/-- Loop body of `Circuit._append_circuit`: each moment of the sub-circuit
is range-validated (no remapping of its resources takes place; the
`mapping` argument never reaches this code) and then appended through
`self.append(moment, ...)`, which inserts it at the then-current end. -/
def appendCircuitGo (c : Circuit) : List Moment → Circuit × Option Err
  | [] => (c, none)
  | m :: rest =>
    match validateMoment m c.numQubits with
    | some e => (c, some e)
    | none =>
      match insertMoment c m c.moments.length with
      | (c', none) => appendCircuitGo c' rest
      | (c', some e) => (c', some e)

/-- Embedding of `Circuit._append_circuit`. -/
def appendCircuit (c : Circuit) (sub : Circuit) : Circuit × Option Err :=
  appendCircuitGo c sub.moments

/-- The kinds of element `Circuit._update` can encounter: an Instruction, a
Moment, a sub-Circuit, or a value of any other type (which the loop
silently skips). -/
inductive Elem where
  | instr : Instruction → Elem
  | mom : Moment → Elem
  | circ : Circuit → Elem
  | other : Elem
deriving DecidableEq

/-- Placement of a validated, parameter-registered Instruction according to
the active update rule (`NEW_THEN_INLINE` switches the rule to `INLINE` for
the rest of the call). Accessing `moments[0]` or `moments[-1]` on an empty
sequence is the Python `IndexError`. -/
def placeInstr (c : Circuit) (rule : UpdateRule) (op : Instruction) :
    Circuit × UpdateRule × Option Err :=
  match rule with
  | UpdateRule.newThenInline =>
    match c.moments with
    | [] => (c, rule, some .indexErr)
    | m0 :: rest =>
      if m0.instructions.isEmpty then
        ({ c with moments := m0.append op :: rest }, .inline, none)
      else
        ({ c with moments := c.moments ++ [⟨[op]⟩] }, .inline, none)
  | UpdateRule.inline =>
    match c.moments.getLast? with
    | none => (c, rule, some .indexErr)
    | some last =>
      if last.appendable op then
        ({ c with moments := c.moments.dropLast ++ [last.append op] },
         rule, none)
      else
        ({ c with moments := c.moments ++ [⟨[op]⟩] }, rule, none)
  | UpdateRule.new =>
    match c.moments with
    | [] => (c, rule, some .indexErr)
    | m0 :: rest =>
      if m0.instructions.isEmpty then
        ({ c with moments := m0.append op :: rest }, rule, none)
      else
        ({ c with moments := c.moments ++ [⟨[op]⟩] }, rule, none)
  | UpdateRule.earliest =>
    match earliestAppended op c.moments with
    | (ms, true) => ({ c with moments := ms }, rule, none)
    | (ms, false) => ({ c with moments := ms ++ [⟨[op]⟩] }, rule, none)

/-- One iteration of the `for op in operation` loop of `Circuit._update`:
validation, parameter registration, then placement according to the active
update rule. -/
def updateStep (c : Circuit) (rule : UpdateRule) (index : Int) :
    Elem → Circuit × UpdateRule × Option Err
  | Elem.instr op =>
    match validateInstr op c.numQubits with
    | some e => (c, rule, some e)
    | none =>
      match addParameters c.paramTable op with
      | (pt', some e) => ({ c with paramTable := pt' }, rule, some e)
      | (pt', none) => placeInstr { c with paramTable := pt' } rule op
  | Elem.mom m =>
    match insertMoment c m (clampIndex index c.moments.length) with
    | (c', e) => (c', rule, e)
  | Elem.circ sub =>
    match appendCircuit c sub with
    | (c', e) => (c', rule, e)
  | Elem.other => (c, rule, none)

/-- Embedding of `Circuit._update`: fold `updateStep` over the element
list, stopping at the first error with the partially mutated state (a
raised Python exception leaves prior in-place mutations intact). -/
def updateAux (c : Circuit) (rule : UpdateRule) (index : Int) :
    List Elem → Circuit × UpdateRule × Option Err
  | [] => (c, rule, none)
  | e :: rest =>
    match updateStep c rule index e with
    | (c', rule', none) => updateAux c' rule' index rest
    | (c', rule', some err) => (c', rule', some err)

/-- The `_update` call made by `Circuit.append`, with
`index = len(self._moments)` measured on the circuit as it stands at that
point; the intermediate rule is dropped from the result. -/
def appendSeqRun (c : Circuit) (l : List Elem) (rule : UpdateRule) :
    Circuit × Option Err :=
  ((updateAux c rule (c.moments.length : Int) l).1,
   (updateAux c rule (c.moments.length : Int) l).2.2)

/-- The iterable path of `Circuit.append`: when the moment sequence is
empty, reading `operation[0]` of an empty sequence is an `IndexError`, and
an initial empty Moment is created only when the first element is an
Instruction; then `_update` runs. -/
def Circuit.appendSeq (c : Circuit) (l : List Elem) (rule : UpdateRule) :
    Circuit × Option Err :=
  if c.moments.isEmpty then
    match l with
    | [] => (c, some .indexErr)
    | Elem.instr _ :: _ =>
      appendSeqRun { c with moments := c.moments ++ [⟨[]⟩] } l rule
    | _ :: _ => appendSeqRun c l rule
  else appendSeqRun c l rule

/-- The argument shapes `Circuit.append` distinguishes: `None`, a singular
(non-iterable) element, or an iterable sequence of elements. -/
inductive AppendArg where
  | noneA : AppendArg
  | single : Elem → AppendArg
  | seq : List Elem → AppendArg
deriving DecidableEq

/-- Embedding of `Circuit.append`: `None` raises `TypeError`
(`typeMismatch`); a missing rule defaults to the circuit's rule; a singular
element is wrapped into a one-element sequence. The `mapping` parameter is
accepted but never used by any code path. -/
def Circuit.append (c : Circuit) (arg : AppendArg)
    (mapping : Option (List Nat)) (rule? : Option UpdateRule) :
    Circuit × Option Err :=
  match arg with
  | AppendArg.noneA => (c, some .typeMismatch)
  | AppendArg.seq l => c.appendSeq l (rule?.getD c.updateRule)
  | AppendArg.single e => c.appendSeq [e] (rule?.getD c.updateRule)

/-- Runs a sequence of `append` calls (argument, mapping, explicit rule),
keeping the state left behind by each call. -/
def runAppends (c : Circuit) :
    List (AppendArg × Option (List Nat) × Option UpdateRule) → Circuit
  | [] => c
  | (a, mp, r) :: rest => runAppends (c.append a mp r).1 rest

/-- C1: the claim says Earliest places an appended operation only in the
first Moment whose appendable check holds, so each operation ends up in
exactly one Moment. The `_earliest_appended` loop has no break: on a fresh
2-resource circuit, after an operation on resource 0 and a conflicting
second operation on resource 0 create two Moments, a third operation on
resource 1 is appended to BOTH Moments, contradicting the claim (and the
function's own docstring, which says "the earliest moment"). -/
theorem earliest_appends_to_every_accepting_moment :
    (((Circuit.init 2 .earliest).append (.single (.instr ⟨0, [], [0]⟩)) none
        none).1.append (.single (.instr ⟨1, [], [0]⟩)) none none).1.append
        (.single (.instr ⟨2, [], [1]⟩)) none none
      = ({ numQubits := 2,
           moments := [⟨[⟨0, [], [0]⟩, ⟨2, [], [1]⟩]⟩,
                       ⟨[⟨1, [], [0]⟩, ⟨2, [], [1]⟩]⟩],
           updateRule := .earliest, paramTable := ⟨[]⟩ }, none)
    ∧ (([⟨[⟨0, [], [0]⟩, ⟨2, [], [1]⟩]⟩,
         ⟨[⟨1, [], [0]⟩, ⟨2, [], [1]⟩]⟩] : List Moment).filter
          fun m => m.instructions.contains ⟨2, [], [1]⟩).length = 2 := by
  constructor
  · rfl
  · decide

/-- C2: the claim says appending a sub-circuit rewrites every Operation's
Resources through the explicit mapping before the Moment reaches the
parent. The code never remaps: `_append_circuit` receives no mapping (the
`mapping` argument of `append` is dropped before `_update` dispatches), and
it appends the child's Moments with their original resource indices. Here a
child operation on resource 0, appended with mapping `[2, 4, 5]`, lands in
the parent still on resource 0 instead of resource 2. -/
theorem append_subcircuit_ignores_mapping :
    (Circuit.init 6 .earliest).append
        (.single (.circ { Circuit.init 3 .earliest with
                            moments := [⟨[⟨0, [], [0]⟩]⟩] }))
        (some [2, 4, 5]) none
      = ({ Circuit.init 6 .earliest with moments := [⟨[⟨0, [], [0]⟩]⟩] }, none) := by
  rfl

/-- C4 counterexample: on a fresh 2-resource circuit, appending an
operation that targets resource 5 does fail with `outOfRangeResource`, but
the Moment count is 1 afterwards, not 0 as the claim states: `append`
creates the initial empty Moment before `_update` validates the operation. -/
theorem append_out_of_range_moment_count_one :
    ((Circuit.init 2 .earliest).append (.single (.instr ⟨0, [], [5]⟩)) none
        none).2 = some Err.outOfRangeResource
    ∧ ((Circuit.init 2 .earliest).append (.single (.instr ⟨0, [], [5]⟩)) none
        none).1.moments.length = 1 := by
  constructor
  · rfl
  · rfl

/-- C4 amended: appending an out-of-range Operation always fails with
`outOfRangeResource` and places no operation and registers no parameter; the
Moment sequence is unchanged when it was nonempty, while on a fresh circuit
exactly one empty initial Moment has been created by the time the error is
raised. -/
theorem append_out_of_range_result (c : Circuit) (op : Instruction)
    (h : (op.qubits.all fun q => q < c.numQubits) = false) :
    c.append (.single (.instr op)) none none
      = (if c.moments.isEmpty
          then { c with moments := c.moments ++ [⟨[]⟩] }
          else c, some Err.outOfRangeResource) := by
  cases hm : c.moments with
  | nil =>
    simp [Circuit.append, Circuit.appendSeq, appendSeqRun, hm, updateAux,
      updateStep, validateInstr, h]
  | cons m ms =>
    simp [Circuit.append, Circuit.appendSeq, appendSeqRun, hm, updateAux,
      updateStep, validateInstr, h]

/-- Witness for the amended C4 theorem at a concrete fresh 2-resource
circuit and an operation targeting resource 5. -/
theorem append_out_of_range_result_witness :
    ((([5] : List Nat).all fun q => q < (Circuit.init 2 .earliest).numQubits)
        = false)
    ∧ (Circuit.init 2 .earliest).append (.single (.instr ⟨0, [], [5]⟩)) none
        none
      = (if (Circuit.init 2 .earliest).moments.isEmpty
          then { Circuit.init 2 .earliest with
                   moments := (Circuit.init 2 .earliest).moments ++ [⟨[]⟩] }
          else Circuit.init 2 .earliest, some Err.outOfRangeResource) :=
  ⟨by decide,
   append_out_of_range_result (Circuit.init 2 .earliest) ⟨0, [], [5]⟩
     (by decide)⟩

/-- C6: determinism. Two circuits created with the same resource count and
the same default rule, fed the identical sequence of `append` calls,
produce the identical Moment structure. The embedding iterates Moments and
within-Moment operations as ordered lists, so the whole construction is a
pure function of the call sequence. -/
theorem append_deterministic (n : Nat) (rule : UpdateRule)
    (calls : List (AppendArg × Option (List Nat) × Option UpdateRule))
    (c1 c2 : Circuit) (h1 : c1 = Circuit.init n rule)
    (h2 : c2 = Circuit.init n rule) :
    (runAppends c1 calls).moments = (runAppends c2 calls).moments := by
  subst h1; subst h2; rfl

/-- Witness for C6: two freshly created 2-resource Earliest circuits run
through the same one-call sequence end with the same Moment structure. -/
theorem append_deterministic_witness :
    (runAppends (Circuit.init 2 .earliest)
        [(.single (.instr ⟨0, [], [0]⟩), none, none)]).moments
      = (runAppends (Circuit.init 2 .earliest)
          [(.single (.instr ⟨0, [], [0]⟩), none, none)]).moments :=
  append_deterministic 2 .earliest
    [(.single (.instr ⟨0, [], [0]⟩), none, none)]
    (Circuit.init 2 .earliest) (Circuit.init 2 .earliest) rfl rfl

/-- C9 counterexample: appending a value of an unsupported type (neither
Operation, Moment, Circuit, nor a sequence of these) does NOT fail with
`typeMismatch` as the claim states: the `_update` loop silently skips the
element and the call returns without error. -/
theorem append_junk_no_error :
    ((Circuit.init 2 .earliest).append (.single .other) none none).2
        ≠ some Err.typeMismatch
    ∧ (Circuit.init 2 .earliest).append (.single .other) none none
        = (Circuit.init 2 .earliest, none) := by
  constructor
  · decide
  · rfl

/-- C9 amended: `append None` fails with `typeMismatch` and leaves the
circuit unchanged; an element of any other unsupported type is silently
ignored — the circuit is left unchanged and no error is raised. -/
theorem append_none_or_unsupported (c : Circuit) :
    c.append .noneA none none = (c, some Err.typeMismatch)
    ∧ c.append (.single .other) none none = (c, none) := by
  refine ⟨rfl, ?_⟩
  cases hm : c.moments with
  | nil =>
    simp [Circuit.append, Circuit.appendSeq, appendSeqRun, hm, updateAux,
      updateStep]
  | cons m ms =>
    simp [Circuit.append, Circuit.appendSeq, appendSeqRun, hm, updateAux,
      updateStep]

/-- C10: appending an empty sequence to a circuit whose Moment sequence is
empty raises the untyped indexing error from reading `operation[0]` (not a
taxonomy error), leaving the circuit unchanged; on a circuit with at least
one Moment the same call is a no-op. -/
theorem append_empty_seq (c : Circuit) :
    (c.moments = [] →
      c.append (.seq []) none none = (c, some Err.indexErr))
    ∧ (c.moments ≠ [] → c.append (.seq []) none none = (c, none)) := by
  constructor
  · intro h
    simp [Circuit.append, Circuit.appendSeq, h]
  · intro h
    cases hm : c.moments with
    | nil => exact absurd hm h
    | cons m ms =>
      simp [Circuit.append, Circuit.appendSeq, appendSeqRun, hm, updateAux]

/-- Witness for C10 at a fresh 2-resource circuit (empty Moment sequence)
and at a circuit holding one empty Moment. -/
theorem append_empty_seq_witness :
    (Circuit.init 2 .earliest).append (.seq []) none none
        = (Circuit.init 2 .earliest, some Err.indexErr)
    ∧ ({ Circuit.init 2 .earliest with moments := [⟨[]⟩] } : Circuit).append
          (.seq []) none none
        = ({ Circuit.init 2 .earliest with moments := [⟨[]⟩] }, none) :=
  ⟨(append_empty_seq (Circuit.init 2 .earliest)).1 rfl,
   (append_empty_seq { Circuit.init 2 .earliest with moments := [⟨[]⟩] }).2
     (by decide)⟩

/-- C7: multi-element appends are not atomic. If `_update` processes a
prefix successfully, processing the full list continues from exactly the
state (Moments and ParameterTable) left by that prefix, so a failure in the
suffix leaves every placement made by the prefix intact while the error
propagates out. -/
theorem update_not_atomic (l1 l2 : List Elem) (c c1 : Circuit)
    (rule rule1 : UpdateRule) (index : Int)
    (h : updateAux c rule index l1 = (c1, rule1, none)) :
    updateAux c rule index (l1 ++ l2) = updateAux c1 rule1 index l2 := by
  induction l1 generalizing c rule with
  | nil =>
    simp only [updateAux, Prod.mk.injEq] at h
    obtain ⟨rfl, rfl, -⟩ := h
    rfl
  | cons e rest ih =>
    rw [List.cons_append]
    simp only [updateAux] at h ⊢
    rcases hs : updateStep c rule index e with ⟨c', rule', err⟩
    rw [hs] at h
    cases err with
    | none => exact ih c' rule' h
    | some er => simp at h

/-- Witness for C7: on a fresh 2-resource circuit, the one-element prefix
holding an operation on resource 0 succeeds, and running the full list
whose second element targets the out-of-range resource 5 behaves exactly as
continuing from the state after the prefix. -/
theorem update_not_atomic_witness :
    updateAux (Circuit.init 2 .earliest) .earliest 0 [.instr ⟨0, [], [0]⟩]
      = ({ Circuit.init 2 .earliest with moments := [⟨[⟨0, [], [0]⟩]⟩] },
         .earliest, none)
    ∧ updateAux (Circuit.init 2 .earliest) .earliest 0
        ([.instr ⟨0, [], [0]⟩] ++ [.instr ⟨1, [], [5]⟩])
      = updateAux
          { Circuit.init 2 .earliest with moments := [⟨[⟨0, [], [0]⟩]⟩] }
          .earliest 0 [.instr ⟨1, [], [5]⟩] :=
  ⟨rfl,
   update_not_atomic [.instr ⟨0, [], [0]⟩] [.instr ⟨1, [], [5]⟩]
     (Circuit.init 2 .earliest)
     { Circuit.init 2 .earliest with moments := [⟨[⟨0, [], [0]⟩]⟩] }
     .earliest .earliest 0 rfl⟩

/-- True when every gate argument of the operation is numeric (no symbolic
parameters), so `_add_parameters` leaves the ParameterTable untouched. -/
def Instruction.noSymbols (op : Instruction) : Bool :=
  op.params.all fun a => match a with | Arg.num _ => true | Arg.param _ => false

/-- Registration loop on a list of enumerated arguments none of which is
symbolic is the identity on the table. -/
theorem addParamsAux_no_param (instr : Instruction) (pt : ParameterTable)
    (l : List (Nat × Arg))
    (h : ∀ p ∈ l,
      (match p.2 with | Arg.num _ => true | Arg.param _ => false) = true) :
    addParamsAux instr pt l = (pt, none) := by
  induction l with
  | nil => rfl
  | cons hd tl ih =>
    rcases hd with ⟨i, a⟩
    cases a with
    | num k =>
      show addParamsAux instr pt tl = (pt, none)
      exact ih fun p hp => h p (List.mem_cons_of_mem _ hp)
    | param p =>
      have hc := h (i, Arg.param p) (List.mem_cons_self _ _)
      simp at hc

/-- `_add_parameters` is a no-op on an instruction without symbolic
arguments. -/
theorem addParameters_noSymbols (pt : ParameterTable) (op : Instruction)
    (h : op.noSymbols = true) : addParameters pt op = (pt, none) := by
  apply addParamsAux_no_param
  intro p hp
  have hsnd : p.2 ∈ op.params := by
    have he := List.enum_map_snd op.params
    rw [← he]
    exact List.mem_map_of_mem Prod.snd hp
  simp only [Instruction.noSymbols] at h
  rw [List.all_eq_true] at h
  exact h p.2 hsnd

/-- One `_update` step under the New rule on a circuit with a nonempty
Moment sequence: fill Moment 0 when it is still empty, else open a fresh
terminal Moment holding only this operation. -/
theorem updateStep_new_cons (c : Circuit) (index : Int) (op : Instruction)
    (m0 : Moment) (rest : List Moment)
    (hq : (op.qubits.all fun q => q < c.numQubits) = true)
    (hs : op.noSymbols = true) (hm : c.moments = m0 :: rest) :
    updateStep c .new index (.instr op)
      = (if m0.instructions.isEmpty
          then { c with moments := m0.append op :: rest }
          else { c with moments := c.moments ++ [⟨[op]⟩] }, .new, none) := by
  simp [updateStep, placeInstr, validateInstr, hq,
    addParameters_noSymbols _ _ hs, hm]
  by_cases hI : m0.instructions = [] <;> simp [hI]

/-- Invariant step for C8: starting from a circuit whose first Moment is
already occupied, every further valid symbol-free operation processed under
the New rule appends its own fresh singleton terminal Moment. -/
theorem updateAux_new_singletons (ops : List Instruction) (c : Circuit)
    (index : Int)
    (hv : ∀ op ∈ ops,
      (op.qubits.all fun q => q < c.numQubits) = true ∧ op.noSymbols = true)
    (m0 : Moment) (rest : List Moment) (hm : c.moments = m0 :: rest)
    (h0 : m0.instructions ≠ []) :
    updateAux c .new index (ops.map .instr)
      = ({ c with moments := c.moments ++ (ops.map fun op => ⟨[op]⟩) },
         .new, none) := by
  induction ops generalizing c rest with
  | nil => simp [updateAux]
  | cons op tl ih =>
    have hop := hv op (List.mem_cons_self _ _)
    have hne : m0.instructions.isEmpty = false := by
      cases hI : m0.instructions with
      | nil => exact absurd hI h0
      | cons a b => rfl
    rw [List.map_cons, updateAux,
      updateStep_new_cons c index op m0 rest hop.1 hop.2 hm, hne]
    simp only [Bool.false_eq_true, if_false]
    have hm' : ({ c with moments := c.moments ++ [⟨[op]⟩] } : Circuit).moments
        = m0 :: (rest ++ [⟨[op]⟩]) := by
      simp [hm]
    rw [ih { c with moments := c.moments ++ [⟨[op]⟩] }
      (fun o ho => hv o (List.mem_cons_of_mem _ ho)) (rest ++ [⟨[op]⟩]) hm']
    simp

/-- C8: under the New rule, appending N ≥ 1 valid in-range symbol-free
operations to a fresh circuit produces exactly N Moments, each holding
exactly one operation: the first operation seeds Moment 0 (created lazily
by `append`) and every subsequent operation gets its own fresh terminal
Moment. -/
theorem new_rule_one_op_per_moment (n : Nat) (ops : List Instruction)
    (h1 : ops ≠ [])
    (hv : ∀ op ∈ ops,
      (op.qubits.all fun q => q < n) = true ∧ op.noSymbols = true) :
    (Circuit.init n .new).appendSeq (ops.map .instr) .new
      = ({ Circuit.init n .new with moments := ops.map fun op => ⟨[op]⟩ },
         none) := by
  cases ops with
  | nil => exact absurd rfl h1
  | cons op tl =>
    have hop := hv op (List.mem_cons_self _ _)
    have hstep : updateStep (⟨n, [⟨[]⟩], .new, ⟨[]⟩⟩ : Circuit) .new 1
        (.instr op) = ((⟨n, [⟨[op]⟩], .new, ⟨[]⟩⟩ : Circuit), .new, none) := by
      simp [updateStep, placeInstr, validateInstr, hop.1,
        addParameters_noSymbols _ _ hop.2, Moment.append]
    have hrest := updateAux_new_singletons tl
      (⟨n, [⟨[op]⟩], .new, ⟨[]⟩⟩ : Circuit) 1
      (fun o ho => hv o (List.mem_cons_of_mem _ ho)) ⟨[op]⟩ [] rfl (by simp)
    have h2 : updateAux (⟨n, [⟨[]⟩], .new, ⟨[]⟩⟩ : Circuit) .new 1
        ((op :: tl).map .instr)
        = ((⟨n, ⟨[op]⟩ :: tl.map fun o => ⟨[o]⟩, .new, ⟨[]⟩⟩ : Circuit),
           .new, none) := by
      rw [List.map_cons]
      simp only [updateAux, hstep]
      rw [hrest]
      simp
    have hfinal : (Circuit.init n .new).appendSeq ((op :: tl).map .instr) .new
        = ((updateAux (⟨n, [⟨[]⟩], .new, ⟨[]⟩⟩ : Circuit) .new 1
              ((op :: tl).map .instr)).1,
           (updateAux (⟨n, [⟨[]⟩], .new, ⟨[]⟩⟩ : Circuit) .new 1
              ((op :: tl).map .instr)).2.2) := rfl
    rw [hfinal, h2]
    rfl

/-- Witness for C8 with three concrete disjoint single-resource operations
on a fresh 3-resource circuit: three Moments result, one operation each. -/
theorem new_rule_one_op_per_moment_witness :
    ([(⟨0, [], [0]⟩ : Instruction), ⟨1, [], [1]⟩, ⟨2, [], [2]⟩] ≠ [])
    ∧ (Circuit.init 3 .new).appendSeq
        ([⟨0, [], [0]⟩, ⟨1, [], [1]⟩, ⟨2, [], [2]⟩].map .instr) .new
      = ({ Circuit.init 3 .new with
             moments := [⟨0, [], [0]⟩, ⟨1, [], [1]⟩,
               ⟨2, [], [2]⟩].map fun op => ⟨[op]⟩ }, none) :=
  ⟨by decide,
   new_rule_one_op_per_moment 3 [⟨0, [], [0]⟩, ⟨1, [], [1]⟩, ⟨2, [], [2]⟩]
     (by decide) (by decide)⟩

/-- Replacing the binding list of a registered symbol and reading it back
returns the new list. -/
theorem getSpecs_setSpecs (pt : ParameterTable) (p : Param)
    (l : List (Instruction × Nat)) (h : pt.containsP p = true) :
    (pt.setSpecs p l).getSpecs p = l := by
  obtain ⟨es⟩ := pt
  revert h
  induction es with
  | nil => intro h; simp [ParameterTable.containsP] at h
  | cons ent tl ih =>
    intro h
    show ((List.find? (fun e => e.1.pid == p.pid)
        ((if ent.1.pid == p.pid then (ent.1, l) else ent) ::
          tl.map fun e => if e.1.pid == p.pid then (e.1, l) else e)).map
        fun e => e.2).getD [] = l
    by_cases h0 : (ent.1.pid == p.pid) = true
    · rw [if_pos h0, List.find?_cons_of_pos]
      · rfl
      · exact h0
    · have hfalse : (ent.1.pid == p.pid) = false := by simpa using h0
      rw [if_neg h0, List.find?_cons]
      simp only [hfalse]
      have hh : (ent.1.pid == p.pid || tl.any fun e => e.1.pid == p.pid)
          = true := h
      rcases Bool.or_eq_true_iff.mp hh with hcase | hcase
      · exact absurd hcase h0
      · exact ih hcase

/-- C5: registering a binding for a Symbol already present by identity
appends the (operation, slot) pair unless the exact pair is already
recorded (then a silent no-op); registering a new Symbol whose display name
is already taken by a registered distinct Symbol fails with `nameConflict`
and records nothing. -/
theorem registerParam_spec (pt : ParameterTable) (p : Param)
    (instr : Instruction) (idx : Nat) :
    (pt.containsP p = true →
       checkDupParamSpec (pt.getSpecs p) instr idx = true →
       registerParam pt p instr idx = (pt, none))
    ∧ (pt.containsP p = true →
       checkDupParamSpec (pt.getSpecs p) instr idx = false →
       (registerParam pt p instr idx).2 = none
       ∧ (registerParam pt p instr idx).1.getSpecs p
           = pt.getSpecs p ++ [(instr, idx)])
    ∧ (pt.containsP p = false → pt.getNames.contains p.name = true →
       registerParam pt p instr idx = (pt, some Err.nameConflict)) := by
  refine ⟨?_, ?_, ?_⟩
  · intro h1 h2
    simp [registerParam, h1, h2]
  · intro h1 h2
    constructor
    · simp [registerParam, h1, h2]
    · simp only [registerParam, h1, h2, if_true, Bool.false_eq_true, if_false]
      exact getSpecs_setSpecs pt p _ h1
  · intro h1 h2
    have h2' : p.name ∈ pt.getNames := by
      simpa [List.contains, List.elem_iff] using h2
    simp [registerParam, h1, h2']

/-- Witness for C5: a table holding symbol (identity 0, name "theta") with
one binding. Re-registering the identical (operation, slot) pair is a
no-op; an identity-matched registration with a second operation appends its
binding; a distinct symbol (identity 1) with the same display name is
rejected with `nameConflict` and the table is returned unchanged. -/
theorem registerParam_spec_witness :
    registerParam ⟨[(⟨0, "theta"⟩, [(⟨10, [], [0]⟩, 0)])]⟩ ⟨0, "theta"⟩
        ⟨10, [], [0]⟩ 0
      = (⟨[(⟨0, "theta"⟩, [(⟨10, [], [0]⟩, 0)])]⟩, none)
    ∧ ((registerParam ⟨[(⟨0, "theta"⟩, [(⟨10, [], [0]⟩, 0)])]⟩ ⟨0, "theta"⟩
          ⟨11, [], [1]⟩ 0).2 = none
       ∧ (registerParam ⟨[(⟨0, "theta"⟩, [(⟨10, [], [0]⟩, 0)])]⟩ ⟨0, "theta"⟩
            ⟨11, [], [1]⟩ 0).1.getSpecs ⟨0, "theta"⟩
          = (⟨[(⟨0, "theta"⟩, [(⟨10, [], [0]⟩, 0)])]⟩ :
              ParameterTable).getSpecs ⟨0, "theta"⟩ ++ [(⟨11, [], [1]⟩, 0)])
    ∧ registerParam ⟨[(⟨0, "theta"⟩, [(⟨10, [], [0]⟩, 0)])]⟩ ⟨1, "theta"⟩
        ⟨12, [], [1]⟩ 0
      = (⟨[(⟨0, "theta"⟩, [(⟨10, [], [0]⟩, 0)])]⟩, some Err.nameConflict) :=
  ⟨(registerParam_spec _ _ _ _).1 (by decide) (by decide),
   (registerParam_spec _ _ _ _).2.1 (by decide) (by decide),
   (registerParam_spec _ _ _ _).2.2 (by decide) (by decide)⟩

/-- Resource-disjointness of two operations: no resource index of the
first occurs among the resource indices of the second. -/
def qdisj (a b : Instruction) : Prop := ∀ q ∈ a.qubits, q ∉ b.qubits

/-- Invariant I1 for one Moment: all distinct operation pairs within it
have disjoint Resource sets. -/
def Moment.resDisjoint (m : Moment) : Prop := m.instructions.Pairwise qdisj

/-- Invariant I1 for a Circuit: every Moment of it satisfies I1. -/
def Circuit.wf (c : Circuit) : Prop := ∀ m ∈ c.moments, m.resDisjoint

/-- Well-formedness of one append element: Moments and sub-circuits handed
to `append` are assumed to satisfy I1 themselves (the Moment class enforces
this on its own `append`); Instructions and skipped values carry no
obligation. -/
def Elem.wf : Elem → Prop
  | Elem.mom m => m.resDisjoint
  | Elem.circ sub => sub.wf
  | _ => True

/-- Well-formedness of a whole `append` argument. -/
def AppendArg.wf : AppendArg → Prop
  | AppendArg.noneA => True
  | AppendArg.single e => e.wf
  | AppendArg.seq l => ∀ e ∈ l, e.wf

/-- A positive `appendable` check means the new operation is
resource-disjoint from every operation already in the moment. -/
theorem appendable_disjoint {m : Moment} {op : Instruction}
    (hap : m.appendable op = true) : ∀ i ∈ m.instructions, qdisj i op := by
  intro i hi q hq hqop
  simp only [Moment.appendable, List.all_eq_true] at hap
  have h1 := hap q hqop i hi
  rw [Bool.not_eq_true'] at h1
  have h2 : i.qubits.contains q = true := by
    simpa [List.contains, List.elem_iff] using hq
  rw [h2] at h1
  simp at h1

/-- Appending under a positive `appendable` check preserves I1 for the
moment. -/
theorem resDisjoint_append {m : Moment} {op : Instruction}
    (hd : m.resDisjoint) (hap : m.appendable op = true) :
    (m.append op).resDisjoint := by
  have hall := appendable_disjoint hap
  simp only [Moment.append, Moment.resDisjoint] at *
  refine List.pairwise_append.mpr ⟨hd, ?_, ?_⟩
  · simp [qdisj]
  · intro a ha b hb
    rw [List.mem_singleton] at hb
    subst hb
    exact hall a ha

/-- Every moment produced by the `_earliest_appended` scan satisfies I1
when all input moments do: each append it makes is guarded by
`appendable`. -/
theorem earliestAppended_wf {op : Instruction} {ms : List Moment}
    (h : ∀ m ∈ ms, m.resDisjoint) :
    ∀ x ∈ (earliestAppended op ms).1, x.resDisjoint := by
  induction ms with
  | nil => intro x hx; simp [earliestAppended] at hx
  | cons m rest ih =>
    intro x hx
    have hrest := fun y hy => h y (List.mem_cons_of_mem _ hy)
    cases hap : m.appendable op with
    | true =>
      simp only [earliestAppended, hap, if_true, List.mem_cons] at hx
      rcases hx with rfl | hx
      · exact resDisjoint_append (h _ (List.mem_cons_self _ _)) hap
      · exact ih hrest x hx
    | false =>
      simp only [earliestAppended, hap, Bool.false_eq_true, if_false,
        List.mem_cons] at hx
      rcases hx with rfl | hx
      · exact h _ (List.mem_cons_self _ _)
      · exact ih hrest x hx

/-- Inserting a Moment that satisfies I1 preserves I1 for the circuit,
whether or not the insertion succeeds. -/
theorem insertMoment_wf {c : Circuit} {m : Moment} {k : Nat}
    (hc : c.wf) (hm : m.resDisjoint) : (insertMoment c m k).1.wf := by
  unfold insertMoment
  cases hv : validateMoment m c.numQubits with
  | some e => exact hc
  | none =>
    rcases hp : addParamsList c.paramTable m.instructions with ⟨pt', err⟩
    cases err with
    | some e => exact hc
    | none =>
      intro x hx
      rcases List.mem_append.mp hx with hx | hx
      · exact hc x (List.mem_of_mem_take hx)
      · rcases List.mem_cons.mp hx with rfl | hx
        · exact hm
        · exact hc x (List.mem_of_mem_drop hx)

/-- The `_append_circuit` loop preserves I1 when the circuit and every
moment of the appended sub-circuit satisfy it. -/
theorem appendCircuitGo_wf {l : List Moment} {c : Circuit}
    (hc : c.wf) (hl : ∀ m ∈ l, m.resDisjoint) :
    (appendCircuitGo c l).1.wf := by
  induction l generalizing c with
  | nil => exact hc
  | cons m rest ih =>
    have hm := hl m (List.mem_cons_self _ _)
    have hrest := fun y hy => hl y (List.mem_cons_of_mem _ hy)
    simp only [appendCircuitGo]
    cases hv : validateMoment m c.numQubits with
    | some e => exact hc
    | none =>
      rcases hI : insertMoment c m c.moments.length with ⟨c', err⟩
      have hc' : c'.wf := by
        have hw := insertMoment_wf (k := c.moments.length) hc hm
        rw [hI] at hw
        exact hw
      cases err with
      | none => exact ih hc' hrest
      | some e => exact hc'

/-- Placement of an instruction under any update rule preserves I1: every
path either appends under an `appendable` guard, fills an empty moment, or
opens a fresh singleton moment. -/
theorem placeInstr_wf {c : Circuit} {rule : UpdateRule} {op : Instruction}
    (hc : c.wf) : (placeInstr c rule op).1.wf := by
  have hsingle : (⟨[op]⟩ : Moment).resDisjoint := by
    simp [Moment.resDisjoint]
  cases rule with
  | newThenInline =>
    simp only [placeInstr]
    split
    · exact hc
    · rename_i m0 rest heq
      split
      · rename_i hI
        intro x hx
        rcases List.mem_cons.mp hx with rfl | hx
        · have h0 : m0.instructions = [] := by simpa using hI
          simp [Moment.resDisjoint, Moment.append, h0]
        · exact hc x (heq ▸ List.mem_cons_of_mem _ hx)
      · intro x hx
        have hx2 : x ∈ c.moments ∨ x = (⟨[op]⟩ : Moment) := by
          have hx3 : x ∈ c.moments ++ [(⟨[op]⟩ : Moment)] := by
            simpa [heq] using hx
          rcases List.mem_append.mp hx3 with h4 | h4
          · exact Or.inl h4
          · exact Or.inr (List.mem_singleton.mp h4)
        rcases hx2 with hx2 | rfl
        · exact hc x hx2
        · exact hsingle
  | new =>
    simp only [placeInstr]
    split
    · exact hc
    · rename_i m0 rest heq
      split
      · rename_i hI
        intro x hx
        rcases List.mem_cons.mp hx with rfl | hx
        · have h0 : m0.instructions = [] := by simpa using hI
          simp [Moment.resDisjoint, Moment.append, h0]
        · exact hc x (heq ▸ List.mem_cons_of_mem _ hx)
      · intro x hx
        have hx2 : x ∈ c.moments ∨ x = (⟨[op]⟩ : Moment) := by
          have hx3 : x ∈ c.moments ++ [(⟨[op]⟩ : Moment)] := by
            simpa [heq] using hx
          rcases List.mem_append.mp hx3 with h4 | h4
          · exact Or.inl h4
          · exact Or.inr (List.mem_singleton.mp h4)
        rcases hx2 with hx2 | rfl
        · exact hc x hx2
        · exact hsingle
  | inline =>
    simp only [placeInstr]
    split
    · exact hc
    · rename_i last hL
      split
      · rename_i hap
        intro x hx
        rcases List.mem_append.mp hx with hx | hx
        · exact hc x (List.dropLast_subset _ hx)
        · rw [List.mem_singleton] at hx
          subst hx
          exact resDisjoint_append (hc last (List.mem_of_mem_getLast? hL)) hap
      · intro x hx
        rcases List.mem_append.mp hx with hx | hx
        · exact hc x hx
        · rw [List.mem_singleton] at hx
          subst hx
          exact hsingle
  | earliest =>
    simp only [placeInstr]
    split
    · rename_i ms hE
      have hms : ∀ x ∈ ms, x.resDisjoint := by
        intro x hx
        have hw : ∀ y ∈ (earliestAppended op c.moments).1, y.resDisjoint :=
          earliestAppended_wf hc
        rw [hE] at hw
        exact hw x hx
      exact hms
    · rename_i ms hE
      have hms : ∀ x ∈ ms, x.resDisjoint := by
        intro x hx
        have hw : ∀ y ∈ (earliestAppended op c.moments).1, y.resDisjoint :=
          earliestAppended_wf hc
        rw [hE] at hw
        exact hw x hx
      intro x hx
      rcases List.mem_append.mp hx with hx | hx
      · exact hms x hx
      · rw [List.mem_singleton] at hx
        subst hx
        exact hsingle

/-- One `_update` step preserves I1. -/
theorem updateStep_wf {c : Circuit} {rule : UpdateRule} {index : Int}
    {e : Elem} (hc : c.wf) (he : e.wf) :
    (updateStep c rule index e).1.wf := by
  cases e with
  | other => exact hc
  | instr op =>
    simp only [updateStep]
    cases hv : validateInstr op c.numQubits with
    | some e2 => exact hc
    | none =>
      rcases hp : addParameters c.paramTable op with ⟨pt', err⟩
      cases err with
      | some e2 => exact hc
      | none => exact placeInstr_wf hc
  | mom m =>
    simp only [updateStep]
    rcases hI : insertMoment c m (clampIndex index c.moments.length)
      with ⟨c', err⟩
    have hw := insertMoment_wf (k := clampIndex index c.moments.length) hc he
    rw [hI] at hw
    exact hw
  | circ sub =>
    simp only [updateStep]
    rcases hI : appendCircuit c sub with ⟨c', err⟩
    have hw : (appendCircuit c sub).1.wf := appendCircuitGo_wf hc he
    rw [hI] at hw
    exact hw

/-- The `_update` loop preserves I1, including on the partial state left
behind by an error. -/
theorem updateAux_wf {l : List Elem} {c : Circuit} {rule : UpdateRule}
    {index : Int} (hc : c.wf) (hl : ∀ e ∈ l, e.wf) :
    (updateAux c rule index l).1.wf := by
  induction l generalizing c rule with
  | nil => exact hc
  | cons e rest ih =>
    simp only [updateAux]
    rcases hs : updateStep c rule index e with ⟨c', rule', err⟩
    have hc' : c'.wf := by
      have hw : (updateStep c rule index e).1.wf :=
        updateStep_wf hc (hl e (List.mem_cons_self _ _))
      rw [hs] at hw
      exact hw
    cases err with
    | none => exact ih hc' fun x hx => hl x (List.mem_cons_of_mem _ hx)
    | some e2 => exact hc'

/-- The iterable append path preserves I1 (the lazily created initial
Moment is empty, hence trivially I1). -/
theorem appendSeq_wf {c : Circuit} {l : List Elem} {rule : UpdateRule}
    (hc : c.wf) (hl : ∀ e ∈ l, e.wf) : (c.appendSeq l rule).1.wf := by
  have hinit : ∀ x ∈ c.moments ++ [(⟨[]⟩ : Moment)], x.resDisjoint := by
    intro x hx
    rcases List.mem_append.mp hx with hx | hx
    · exact hc x hx
    · rw [List.mem_singleton] at hx
      subst hx
      simp [Moment.resDisjoint]
  unfold Circuit.appendSeq
  by_cases hm : c.moments.isEmpty = true
  · rw [if_pos hm]
    cases l with
    | nil => exact hc
    | cons e rest =>
      cases e with
      | instr op => exact updateAux_wf hinit hl
      | mom m => exact updateAux_wf hc hl
      | circ s => exact updateAux_wf hc hl
      | other => exact updateAux_wf hc hl
  · rw [if_neg hm]
    exact updateAux_wf hc hl

/-- C3: invariant I1. After any public `append` — of an Operation, a
Moment, a sequence, or a sub-circuit, under any update rule — every Moment
of the resulting circuit (also on the partial state at an error) holds
pairwise resource-disjoint operations, provided the circuit satisfied I1
before the call and every Moment or sub-circuit handed in satisfies I1
itself. -/
theorem append_preserves_I1 (c : Circuit) (arg : AppendArg)
    (mapping : Option (List Nat)) (rule? : Option UpdateRule)
    (hc : c.wf) (ha : arg.wf) : (c.append arg mapping rule?).1.wf := by
  cases arg with
  | noneA => exact hc
  | single e => exact appendSeq_wf hc (by intro x hx; rw [List.mem_singleton] at hx; subst hx; exact ha)
  | seq l => exact appendSeq_wf hc ha

/-- Witness for C3: a fresh 2-resource Earliest circuit, one sequence
append holding two operations and a pre-built disjoint Moment; the
resulting circuit satisfies I1. -/
theorem append_preserves_I1_witness :
    Circuit.wf ((Circuit.init 2 .earliest).append
      (.seq [.instr ⟨0, [], [0]⟩, .instr ⟨1, [], [0]⟩,
             .mom ⟨[⟨2, [], [0]⟩, ⟨3, [], [1]⟩]⟩]) none none).1 :=
  append_preserves_I1 (Circuit.init 2 .earliest)
    (.seq [.instr ⟨0, [], [0]⟩, .instr ⟨1, [], [0]⟩,
           .mom ⟨[⟨2, [], [0]⟩, ⟨3, [], [1]⟩]⟩]) none none
    (by intro m hm; simp [Circuit.init] at hm)
    (by
      intro e he
      simp only [List.mem_cons] at he
      rcases he with rfl | rfl | rfl | he
      · trivial
      · trivial
      · simp [Elem.wf, Moment.resDisjoint, qdisj]
      · simp at he)

end Qbraid
